import Mathlib

/-!
Verification of the chunk-extraction cascade, incremental indexing pipeline and
hybrid retrieval engine of the universal-code-rag repository.

The Python source is shallowly embedded: strings are manipulated as `List Char`
(one entry per Python `str` character), pure functions become Lean functions,
and the external collaborators (tree-sitter parser, `json` module, BM25 scorer,
filesystem, SQLite state table) appear as explicit data parameters.
-/

/-- `chunkers/base_chunker.py`: the `CodeChunk` dataclass.  The Python field
`namespace` is a Lean keyword and is embedded as `namespace_`. -/
structure CodeChunk where
  type : String
  name : String
  content : String
  filepath : String
  language : String
  line_start : Nat
  line_end : Nat
  signature : Option String := none
  namespace_ : Option String := none
  parent_class : Option String := none
  metadata : Option (List (String × String)) := none
deriving Repr, DecidableEq

/-- Python `\s` for the ASCII range: space, tab, newline, carriage return,
vertical tab, form feed. -/
def isPySpace (c : Char) : Bool :=
  c == ' ' || c == '\t' || c == '\n' || c == '\r' || c.toNat == 11 || c.toNat == 12

/-- Python `str.strip()` on a character list. -/
def pyStripL (cs : List Char) : List Char :=
  ((cs.dropWhile isPySpace).reverse.dropWhile isPySpace).reverse

/-- Python `code.split('\n')`: every newline separates, empty pieces kept,
`"".split('\n') == ['']`. -/
def splitNl : List Char → List (List Char)
  | [] => [[]]
  | c :: cs =>
    if c = '\n' then [] :: splitNl cs
    else
      match splitNl cs with
      | [] => [[c]]
      | p :: ps => (c :: p) :: ps

/-- Python `'\n'.join(...)` on character lists. -/
def joinNl : List (List Char) → List Char
  | [] => []
  | [p] => p
  | p :: ps => p ++ '\n' :: joinNl ps

theorem splitNl_ne_nil (cs : List Char) : splitNl cs ≠ [] := by
  cases cs with
  | nil => simp [splitNl]
  | cons c cs =>
    simp only [splitNl]
    split
    · simp
    · cases splitNl cs <;> simp

theorem joinNl_splitNl (cs : List Char) : joinNl (splitNl cs) = cs := by
  induction cs with
  | nil => rfl
  | cons c cs ih =>
    simp only [splitNl]
    split
    · subst c
      rcases h : splitNl cs with _ | ⟨p, ps⟩
      · exact absurd h (splitNl_ne_nil cs)
      · rw [h] at ih
        simpa [joinNl] using ih
    · rcases h : splitNl cs with _ | ⟨p, ps⟩
      · exact absurd h (splitNl_ne_nil cs)
      · rw [h] at ih
        cases ps with
        | nil => simpa [joinNl] using ih
        | cons q qs => simpa [joinNl] using ih

/-- `fallback_chunker.py` line 110, `re.match(r'^(#{1,6})\s+(.+)$', line)`,
returning `group(2).strip()` on success.  The regex is deterministic on a
newline-free line: 1–6 leading `#`, at least one whitespace, then a non-empty
remainder (with one backtracking step into the whitespace run when the
remainder would otherwise be empty). -/
def headingMatch (line : List Char) : Option (List Char) :=
  let h := (line.takeWhile (· == '#')).length
  if 1 ≤ h ∧ h ≤ 6 then
    let rest := line.drop h
    let w := (rest.takeWhile isPySpace).length
    if 1 ≤ w ∧ 2 ≤ rest.length then
      some (pyStripL (if w < rest.length then rest.drop w else rest.drop (w - 1)))
    else none
  else none

/-- Constructor used by the heading/section loops of `fallback_chunker.py` and
`adaptive_chunker.py`. -/
def mkSectionChunk (language fp : String) (nm : List Char) (secLines : List (List Char))
    (ls le : Nat) : CodeChunk :=
  { type := "section", name := String.mk nm, content := String.mk (joinNl secLines),
    filepath := fp, language := language, line_start := ls, line_end := le }

/-- The section-accumulation loop shared (up to the header matcher) by
`FallbackChunker._extract_by_headings` (`fallback_chunker.py` 104–144) and
`AdaptiveChunker._extract_config_sections` (`adaptive_chunker.py` 100–141):
`i` is the 1-based number of the next line, `curSec` the lines accumulated for
the current section, `secStart` its first line number, `total` the number of
lines of the file (the final section's `line_end`). -/
def scanSections (matcher : List Char → Option (List Char)) (language fp : String)
    (total : Nat) :
    List (List Char) → Nat → List (List Char) → List Char → Nat → List CodeChunk
  | [], _, curSec, curName, secStart =>
    if curSec.isEmpty then [] else [mkSectionChunk language fp curName curSec secStart total]
  | line :: rest, i, curSec, curName, secStart =>
    match matcher line with
    | some nm =>
      (if curSec.isEmpty then [] else [mkSectionChunk language fp curName curSec secStart (i - 1)])
        ++ scanSections matcher language fp total rest (i + 1) [line] nm i
    | none => scanSections matcher language fp total rest (i + 1) (curSec ++ [line]) curName secStart

/-- `FallbackChunker._extract_by_headings` (`fallback_chunker.py` 99–146). -/
def extract_by_headings (language fp code : String) : List CodeChunk :=
  let lines := splitNl code.toList
  scanSections headingMatch language fp lines.length lines 1 [] "Introduction".toList 1

/-- First alternative of the section regex of `adaptive_chunker.py` line 107,
`\[.+\]` anchored on a stripped line: `[`, at least one arbitrary character,
`]`. -/
def sectionMatchAlt1 (s : List Char) : Bool :=
  3 ≤ s.length && s.head? == some '[' && s.getLast? == some ']'

/-- `[a-zA-Z_]`. -/
def isIdentStart (c : Char) : Bool := c.isAlpha || c == '_'

/-- `[\w\.]` restricted to ASCII. -/
def isWordDot (c : Char) : Bool := c.isAlphanum || c == '_' || c == '.'

/-- Second alternative of the section regex, `[a-zA-Z_][\w\.]*:` anchored on a
stripped line. -/
def sectionMatchAlt2 (s : List Char) : Bool :=
  match s with
  | [] => false
  | c :: rest => isIdentStart c && rest.getLast? == some ':' && rest.dropLast.all isWordDot

/-- Python `.strip(':[]')`: remove `:`, `[`, `]` from both ends. -/
def isNameStripChar (c : Char) : Bool := c == ':' || c == '[' || c == ']'

def stripNameChars (s : List Char) : List Char :=
  ((s.dropWhile isNameStripChar).reverse.dropWhile isNameStripChar).reverse

/-- `adaptive_chunker.py` lines 107–124: the section-header test
`re.match(r'^(\[.+\]|[a-zA-Z_][\w\.]*:)\s*$', line.strip())` guarded by
`not line.startswith(' ')`; on success the new section name is
`group(1).strip(':[]')` (for a stripped line, `group(1)` is the whole stripped
line). -/
def sectionHeaderName (line : List Char) : Option (List Char) :=
  let s := pyStripL line
  if (sectionMatchAlt1 s || sectionMatchAlt2 s) && !(line.head? == some ' ') then
    some (stripNameChars s)
  else none

/-- `AdaptiveChunker._extract_config_sections` (`adaptive_chunker.py` 94–143). -/
def extract_config_sections (language fp code : String) : List CodeChunk :=
  let lines := splitNl code.toList
  scanSections sectionHeaderName language fp lines.length lines 1 [] "root".toList 1

/-- Index of the last `'\n'` inside the maximal whitespace prefix of `cs`
(`None` when that prefix has no newline).  This is where the greedy
backtracking of `\n\s*\n` places the separator's final newline. -/
def lastNlIdx : List Char → Option Nat
  | [] => none
  | c :: cs =>
    if isPySpace c then
      match lastNlIdx cs with
      | some j => some (j + 1)
      | none => if c = '\n' then some 0 else none
    else none

/-- `re.split(r'\n\s*\n', code)` (`fallback_chunker.py` line 42): scan left to
right; at each newline, if the following maximal whitespace run contains a
newline, the text from the first newline through the last such newline is a
separator. -/
def paraSplitGo (acc : List Char) : List Char → List (List Char)
  | [] => [acc.reverse]
  | c :: rs =>
    if c = '\n' then
      match lastNlIdx rs with
      | some j => acc.reverse :: paraSplitGo [] (rs.drop (j + 1))
      | none => paraSplitGo (c :: acc) rs
    else paraSplitGo (c :: acc) rs
termination_by rs => rs.length
decreasing_by
  · simp [List.length_drop]; omega
  · simp
  · simp

/-- The chunk loop of `FallbackChunker._extract_by_paragraphs`
(`fallback_chunker.py` 44–67): `i` is the 0-based paragraph index (empties
included), `curLine` the running line counter. -/
def paraGo (language fp : String) : List (List Char) → Nat → Nat → List CodeChunk
  | [], _, _ => []
  | para :: rest, i, curLine =>
    let p := pyStripL para
    if p.isEmpty then paraGo language fp rest (i + 1) curLine
    else
      let lineCount := p.count '\n' + 1
      { type := "paragraph", name := "paragraph_" ++ toString (i + 1),
        content := String.mk p, filepath := fp, language := language,
        line_start := curLine, line_end := curLine + lineCount - 1 }
        :: paraGo language fp rest (i + 1) (curLine + lineCount + 1)

/-- `FallbackChunker._extract_by_paragraphs` (`fallback_chunker.py` 39–69). -/
def extract_by_paragraphs (language fp code : String) : List CodeChunk :=
  paraGo language fp (paraSplitGo [] code.toList) 0 1

/-- The `while` loop of `FallbackChunker._extract_fixed_size`
(`fallback_chunker.py` 77–95) with the default `chunk_size = 50`,
`overlap = 10`. -/
def fixedGo (language fp : String) (lines : List (List Char)) (i chunkNum : Nat) :
    List CodeChunk :=
  if i < lines.length then
    { type := "block", name := "block_" ++ toString chunkNum,
      content := String.mk (joinNl ((lines.drop i).take 50)), filepath := fp,
      language := language, line_start := i + 1, line_end := min (i + 50) lines.length }
      :: fixedGo language fp lines (i + 40) (chunkNum + 1)
  else []
termination_by lines.length - i
decreasing_by omega

/-- `FallbackChunker._extract_fixed_size` (`fallback_chunker.py` 71–97). -/
def extract_fixed_size (language fp code : String) : List CodeChunk :=
  fixedGo language fp (splitNl code.toList) 0 1

/-- JSON-array chunks of `AdaptiveChunker._extract_records`
(`adaptive_chunker.py` 154–166): `i` is the 0-based record index. -/
def recsGo (language fp : String) : List String → Nat → List CodeChunk
  | [], _ => []
  | r :: rest, i =>
    { type := "record", name := "record_" ++ toString (i + 1), content := r,
      filepath := fp, language := language, line_start := i + 1, line_end := i + 1 }
      :: recsGo language fp rest (i + 1)

/-- CSV-row chunks of `AdaptiveChunker._extract_records`
(`adaptive_chunker.py` 171–187): `i` is the 1-based data-row index
(`enumerate(lines[1:], 1)`), the header line is prepended to each row's
content. -/
def csvGo (language fp : String) (header : List Char) : List (List Char) → Nat → List CodeChunk
  | [], _ => []
  | line :: rest, i =>
    if (pyStripL line).isEmpty then csvGo language fp header rest (i + 1)
    else
      { type := "record", name := "row_" ++ toString i,
        content := String.mk (header ++ '\n' :: line), filepath := fp,
        language := language, line_start := i + 1, line_end := i + 1 }
        :: csvGo language fp header rest (i + 1)

/-- `AdaptiveChunker._extract_records` (`adaptive_chunker.py` 145–189).  The
Python standard library's `json.loads` / `json.dumps(record, indent=2)` pair is
an external collaborator; it is abstracted as `jp`, which returns the rendered
record strings of a top-level JSON array, or `none` when `json.loads` raises or
yields a non-list. -/
def extract_records (jp : String → Option (List String)) (language fp code : String) :
    List CodeChunk :=
  match jp code with
  | some recs => recsGo language fp recs 0
  | none =>
    let lines := splitNl code.toList
    if 1 < lines.length then
      match lines with
      | [] => []
      | header :: dataLines => csvGo language fp header dataLines 1
    else []

/-- `chunkers/file_architectures.py`: the `FileArchitecture` enum. -/
inductive FileArchitecture where
  | FUNCTION_BASED
  | SECTION_BASED
  | HEADING_BASED
  | ELEMENT_BASED
  | RULE_BASED
  | RECORD_BASED
  | QUERY_BASED
  | TEMPLATE_BASED
  | SCHEMA_BASED
deriving Repr, DecidableEq

/-- `file_architectures.py` 44–115: the `LANGUAGE_ARCHITECTURE` dict entries
(in insertion order; `pony` appears twice with the same value, as in the
source). -/
def LANGUAGE_ARCHITECTURE : List (String × FileArchitecture) :=
  (["c", "cpp", "java", "python", "javascript", "typescript", "tsx",
    "go", "rust", "zig", "nim", "d", "v", "odin", "carbon",
    "csharp", "fsharp", "kotlin", "scala", "groovy", "clojure",
    "ruby", "php", "lua", "perl", "elixir", "erlang", "dart",
    "haskell", "ocaml", "swift", "elm", "purescript", "racket", "scheme",
    "commonlisp", "reasonml", "agda", "idris", "lean",
    "fortran", "ada", "pascal", "actionscript",
    "apex", "hack", "haxe", "gdscript", "objc",
    "bash", "fish", "powershell", "tcl",
    "r", "julia", "matlab", "scilab",
    "solidity", "cairo", "clarity", "vyper",
    "gleam", "hare", "pony", "unison",
    "elisp", "fennel", "janet",
    "bsl", "pike", "sourcepawn", "squirrel", "pony",
    "magik", "netlinx", "nqc"].map (fun l => (l, FileArchitecture.FUNCTION_BASED)))
  ++ (["yaml", "toml", "ini", "hcl", "terraform", "bicep",
       "properties", "kdl", "ron", "dhall",
       "git_config", "gitattributes", "gitignore",
       "readline", "udev", "kconfig"].map (fun l => (l, FileArchitecture.SECTION_BASED)))
  ++ (["markdown", "markdown_inline", "rst", "latex", "org", "typst",
       "pod", "doxygen", "asciidoc"].map (fun l => (l, FileArchitecture.HEADING_BASED)))
  ++ (["html", "xml", "svg", "dtd", "pem",
       "vue", "svelte", "astro"].map (fun l => (l, FileArchitecture.ELEMENT_BASED)))
  ++ (["make", "cmake", "ninja", "bazel", "starlark", "bitbake",
       "meson", "just", "gn"].map (fun l => (l, FileArchitecture.RULE_BASED)))
  ++ (["csv", "tsv", "psv",
       "json", "json5", "jsonnet",
       "beancount", "ledger",
       "po", "pgn"].map (fun l => (l, FileArchitecture.RECORD_BASED)))
  ++ (["sql", "plsql", "graphql", "sparql", "rego"].map
        (fun l => (l, FileArchitecture.QUERY_BASED)))
  ++ (["jinja", "ejs", "twig", "heex", "embeddedtemplate",
       "mustache", "handlebars"].map (fun l => (l, FileArchitecture.TEMPLATE_BASED)))
  ++ (["protobuf", "proto", "thrift", "capnp",
       "prisma", "smithy", "avro",
       "yang", "systemrdl"].map (fun l => (l, FileArchitecture.SCHEMA_BASED)))

/-- `file_architectures.py` 176–181: `get_architecture`, defaulting unknown
languages to `FUNCTION_BASED`. -/
def get_architecture (language : String) : FileArchitecture :=
  match LANGUAGE_ARCHITECTURE.find? (fun p => p.1 == language) with
  | some p => p.2
  | none => FileArchitecture.FUNCTION_BASED

/-- `AdaptiveChunker._extract_by_architecture` (`adaptive_chunker.py` 73–92). -/
def extract_by_architecture (jp : String → Option (List String))
    (language fp code : String) : List CodeChunk :=
  match get_architecture language with
  | FileArchitecture.HEADING_BASED => extract_by_headings language fp code
  | FileArchitecture.SECTION_BASED => extract_config_sections language fp code
  | FileArchitecture.RECORD_BASED => extract_records jp language fp code
  | _ => extract_by_paragraphs language fp code

/-- `AdaptiveChunker.extract_chunks` (`adaptive_chunker.py` 44–71) downstream
of strategy 1: `tsChunks` is what the tree-sitter strategy produced (`[]` when
no query is configured, the query matched nothing, or the parse raised). -/
def adaptive_cascade (jp : String → Option (List String)) (language fp code : String)
    (tsChunks : List CodeChunk) : List CodeChunk :=
  if !tsChunks.isEmpty then tsChunks
  else if !(extract_by_architecture jp language fp code).isEmpty then
    extract_by_architecture jp language fp code
  else extract_by_paragraphs language fp code

/-- One UTF-8 encoded character, as byte values (Python `str.encode('utf8')`
per character). -/
def utf8EncodeCharL (c : Char) : List Nat :=
  let n := c.toNat
  if n < 128 then [n]
  else if n < 2048 then [192 + n / 64, 128 + n % 64]
  else if n < 65536 then [224 + n / 4096, 128 + n / 64 % 64, 128 + n % 64]
  else [240 + n / 262144, 128 + n / 4096 % 64, 128 + n / 64 % 64, 128 + n % 64]

/-- Python `code.encode('utf8')` as a byte-value list. -/
def pyUtf8Encode (s : String) : List Nat := s.data.flatMap utf8EncodeCharL

/-- UTF-8 continuation byte. -/
def isCont (b : Nat) : Bool := 128 ≤ b && b < 192

/-- Python `bytes.decode('utf8')`: strict decoding, rejecting truncated
sequences, overlong encodings, surrogates and out-of-range code points. -/
def pyUtf8Decode : List Nat → Option (List Char)
  | [] => some []
  | b :: rest =>
    if b < 128 then (pyUtf8Decode rest).map (fun cs => Char.ofNat b :: cs)
    else if b < 194 then none
    else if b < 224 then
      match rest with
      | b2 :: rest2 =>
        if isCont b2 then
          (pyUtf8Decode rest2).map (fun cs => Char.ofNat ((b - 192) * 64 + (b2 - 128)) :: cs)
        else none
      | [] => none
    else if b < 240 then
      match rest with
      | b2 :: b3 :: rest3 =>
        if isCont b2 && isCont b3 then
          let cp := (b - 224) * 4096 + (b2 - 128) * 64 + (b3 - 128)
          if 2048 ≤ cp && !(55296 ≤ cp && cp ≤ 57343) then
            (pyUtf8Decode rest3).map (fun cs => Char.ofNat cp :: cs)
          else none
        else none
      | _ => none
    else if b < 245 then
      match rest with
      | b2 :: b3 :: b4 :: rest4 =>
        if isCont b2 && isCont b3 && isCont b4 then
          let cp := (b - 240) * 262144 + (b2 - 128) * 4096 + (b3 - 128) * 64 + (b4 - 128)
          if 65536 ≤ cp && cp ≤ 1114111 then
            (pyUtf8Decode rest4).map (fun cs => Char.ofNat cp :: cs)
          else none
        else none
      | _ => none
    else none

/-- `code.encode('utf8')[s:e].decode('utf8')` (`tree_sitter_chunker.py` lines
103 and 113); `none` models the `UnicodeDecodeError` that the caller's
`except` turns into an empty result. -/
def utf8Slice (code : String) (s e : Nat) : Option String :=
  (pyUtf8Decode (((pyUtf8Encode code).drop s).take (e - s))).map String.mk

/-- The data the external tree-sitter parser supplies for one captured node:
byte range, 0-based row range, and the byte range of the
`child_by_field_name("name")` child when that field exists. -/
structure TSNode where
  start_byte : Nat
  end_byte : Nat
  start_row : Nat
  end_row : Nat
  name_child : Option (Nat × Nat)
deriving Repr, DecidableEq

/-- `GenericTreeSitterChunker._map_tag_to_type` (`tree_sitter_chunker.py`
127–132). -/
def map_tag_to_type (tag : String) : String :=
  match tag.toList with
  | '@' :: rest => String.mk rest
  | _ => tag

/-- `GenericTreeSitterChunker._process_capture` (`tree_sitter_chunker.py`
98–123).  A decode failure is an exception (`none`); otherwise the capture is
appended unconditionally, with `name = "anonymous"` when the node has no
`name` field. -/
def process_capture (language fp code : String) (node : TSNode) (tag : String) :
    Option CodeChunk :=
  match utf8Slice code node.start_byte node.end_byte with
  | none => none
  | some text =>
    let nameRes : Option String :=
      match node.name_child with
      | none => some "anonymous"
      | some (s, e) => utf8Slice code s e
    match nameRes with
    | none => none
    | some nm =>
      some { type := map_tag_to_type tag, name := nm, content := text, filepath := fp,
             language := language, line_start := node.start_row + 1,
             line_end := node.end_row + 1 }

/-- The capture loop of `GenericTreeSitterChunker.extract_chunks`: one chunk
appended per capture, aborting (exception) if any capture fails to decode. -/
def process_captures (language fp code : String) :
    List (TSNode × String) → Option (List CodeChunk)
  | [] => some []
  | p :: ps =>
    match process_capture language fp code p.1 p.2 with
    | none => none
    | some c =>
      match process_captures language fp code ps with
      | none => none
      | some cs => some (c :: cs)

/-- `GenericTreeSitterChunker.extract_chunks` (`tree_sitter_chunker.py`
52–96): blank input short-circuits to `[]`; an exception while processing the
captures yields `[]`. -/
def ts_extract_chunks (language fp code : String) (captures : List (TSNode × String)) :
    List CodeChunk :=
  if (pyStripL code.toList).isEmpty then []
  else
    match process_captures language fp code captures with
    | some cs => cs
    | none => []

/-- `BaseChunker._should_include_chunk` (`base_chunker.py` 71–83) with its
default `min_size = 10`, `max_size = 10000`. -/
def should_include_chunk (min_size max_size : Nat) (chunk : CodeChunk) : Bool :=
  let content_len := chunk.content.length
  if content_len < min_size || max_size < content_len then false
  else if chunk.name == "unknown" || chunk.name == "anonymous" then false
  else true

/-- `AdaptiveChunker.extract_chunks` with its strategy-1 tree-sitter call
expanded: `captures` is what the external parser's query produced. -/
def adaptive_extract (jp : String → Option (List String)) (language fp code : String)
    (captures : List (TSNode × String)) : List CodeChunk :=
  adaptive_cascade jp language fp code (ts_extract_chunks language fp code captures)

/-- The metadata fields the retrieval filters inspect
(`metadata.get('language')`, `metadata.get('type')` in `rag.py` 211–215). -/
structure ChunkMeta where
  language : String
  type : String
deriving Repr, DecidableEq

/-- One BM25-indexed document: parallel entries of `bm25_ids`,
`bm25_metadatas` and of the score array `bm25.get_scores(...)` returns (the
BM25 scorer itself is the external `rank_bm25` collaborator). -/
structure BMDoc where
  id : String
  meta : ChunkMeta
  score : ℚ
deriving Repr, DecidableEq

/-- Stable descending insertion for `sortDesc`. -/
def insertDesc {α : Type} (key : α → ℚ) (x : α) : List α → List α
  | [] => [x]
  | y :: ys => if key y < key x then x :: y :: ys else y :: insertDesc key x ys

/-- Stable sort by key, largest first (`sorted(..., reverse=True)` /
`np.argsort(...)[::-1]` with a deterministic tie order). -/
def sortDesc {α : Type} (key : α → ℚ) (l : List α) : List α :=
  l.foldl (fun acc x => insertDesc key x acc) []

/-- Python `str.split()` with no separator: split on whitespace runs, empty
pieces dropped. -/
def splitWsGo (cur : List Char) : List Char → List (List Char)
  | [] => if cur.isEmpty then [] else [cur.reverse]
  | c :: cs =>
    if isPySpace c then
      (if cur.isEmpty then [] else [cur.reverse]) ++ splitWsGo [] cs
    else splitWsGo (c :: cur) cs

/-- `query.lower().split()` (`rag.py` line 203). -/
def tokenize_query (q : String) : List String :=
  (splitWsGo [] (q.data.map Char.toLower)).map String.mk

/-- The client-side metadata filters of `rag.py` 211–215. -/
def docFilterOk (language ftype : Option String) (d : BMDoc) : Bool :=
  (match language with | some l => d.meta.language == l | none => true) &&
  (match ftype with | some t => d.meta.type == t | none => true)

/-- The keyword-search candidate selection of `retrieve_context` (`rag.py`
203–222): rank ALL documents by raw BM25 score, truncate to the top
`2 * n_results`, and only then discard non-positive scores and filter
mismatches. -/
def keyword_search (docs : List BMDoc) (language ftype : Option String) (n : Nat) :
    List BMDoc :=
  ((sortDesc (fun d => d.score) docs).take (2 * n)).filter
    (fun d => decide (0 < d.score) && docFilterOk language ftype d)

/-- Modelled from the spec: the candidate list §4.4 describes — "take the top
`2·top_k` by raw score AFTER client-side filtering on language/type,
discarding non-positive scores", i.e. filter first, then truncate. -/
def keyword_search_specfilter (docs : List BMDoc) (language ftype : Option String)
    (n : Nat) : List BMDoc :=
  (sortDesc (fun d => d.score)
      (docs.filter (fun d => decide (0 < d.score) && docFilterOk language ftype d))).take
    (2 * n)

/-- Accumulated RRF contribution of `id` from one ranked list whose first
element has rank `r` (`rag.py` 256–262: `scores[id] += 1 / (k + rank + 1)`). -/
def listContrib (k : ℚ) : List String → Nat → String → ℚ
  | [], _, _ => 0
  | x :: xs, r, id =>
    (if x = id then 1 / (k + (r : ℚ) + 1) else 0) + listContrib k xs (r + 1) id

/-- The fused score `_rrf_fusion` assigns with its `k = 60`. -/
def rrfScore (vec kw : List String) (id : String) : ℚ :=
  listContrib 60 vec 0 id + listContrib 60 kw 0 id

/-- Key order of the Python `defaultdict`: first occurrences, in order. -/
def dedupKeysGo (seen : List String) : List String → List String
  | [] => []
  | x :: xs => if x ∈ seen then dedupKeysGo seen xs else x :: dedupKeysGo (x :: seen) xs

def dedupKeys (l : List String) : List String := dedupKeysGo [] l

/-- `ChromeRAGSystem._rrf_fusion` (`rag.py` 249–280) restricted to the ids and
fused scores (`rrf_score`) of its output: ids are sorted by fused score,
largest first, stably in key-insertion order. -/
def rrf_fusion (vec kw : List String) : List (String × ℚ) :=
  (sortDesc (rrfScore vec kw) (dedupKeys (vec ++ kw))).map
    (fun id => (id, rrfScore vec kw id))

/-- The truncation `combined_results[:n_results]` of `retrieve_context`
(`rag.py` 234). -/
def retrieve_fused (vec kw : List String) (n : Nat) : List (String × ℚ) :=
  (rrf_fusion vec kw).take n

/-- Outcome of the SQLite point lookup in `StateManager.should_process`:
an exception, no row, or a stored mtime. -/
inductive LookupResult where
  | err
  | absent
  | found (mtime : ℚ)
deriving Repr, DecidableEq

/-- `StateManager.should_process` (`state_manager.py` 40–67): `fs` gives a
file's current on-disk mtime (`none` when `Path.exists()` is false), `db` the
tracker's stored row.  A missing file returns `False`; a lookup error
fail-opens to `True`; otherwise process iff no row or strictly newer mtime. -/
def should_process (fs : String → Option ℚ) (db : String → LookupResult) (p : String) :
    Bool :=
  match fs p with
  | none => false
  | some m =>
    match db p with
    | LookupResult.err => true
    | LookupResult.absent => true
    | LookupResult.found m0 => decide (m0 < m)

/-- The staleness filter of `ChromeIndexer.index_directory` (`indexer.py`
156–161): candidates that need processing, and the skipped count. -/
def filterStale (fs : String → Option ℚ) (db : String → LookupResult)
    (cands : List String) : List String × Nat :=
  (cands.filter (fun p => should_process fs db p),
   cands.countP (fun p => !should_process fs db p))

/-- What `process_file_worker` (`indexer.py` 27–88) hands back:
`(file_path, language, chunks, error_message)`. -/
structure WorkerResult where
  path : String
  language : String
  chunks : List CodeChunk
  error : Option String
deriving Repr, DecidableEq

/-- The run statistics of `ChromeIndexer` (`indexer.py` 103–111). -/
structure RunStats where
  files_processed : Nat
  files_skipped : Nat
  files_failed : Nat
  chunks_created : Nat
  files_by_type : List (String × Nat)
  chunks_by_type : List (String × Nat)
  errors : List String
deriving Repr, DecidableEq

/-- `defaultdict(int)` increment, keeping insertion order. -/
def bumpCount (key : String) : List (String × Nat) → List (String × Nat)
  | [] => [(key, 1)]
  | (k, n) :: rest => if k = key then (k, n + 1) :: rest else (k, n) :: bumpCount key rest

/-- Coordinator-side state of the result loop of `index_directory`: statistics,
the pending batch, the batches committed via `rag.add_chunks_batch`, and the
paths passed to `state_manager.mark_processed`. -/
structure IndexState where
  stats : RunStats
  batch : List CodeChunk
  committed : List (List CodeChunk)
  marked : List String
deriving Repr, DecidableEq

/-- One iteration of the result loop (`indexer.py` 191–214): an errored file
is recorded and counted, and nothing else happens to it; a successful file
extends the batch, updates the statistics, is marked processed, and the batch
is flushed once it reaches `batch_size`. -/
def processResult (batchSize : Nat) (st : IndexState) (r : WorkerResult) : IndexState :=
  match r.error with
  | some e =>
    { st with
      stats := { st.stats with
        files_failed := st.stats.files_failed + 1,
        errors := st.stats.errors ++ [r.path ++ ": " ++ e] } }
  | none =>
    let batch1 := st.batch ++ r.chunks
    let stats1 := { st.stats with
        files_processed := st.stats.files_processed + 1,
        files_by_type := bumpCount r.language st.stats.files_by_type,
        chunks_created := st.stats.chunks_created + r.chunks.length,
        chunks_by_type := r.chunks.foldl (fun m c => bumpCount c.type m) st.stats.chunks_by_type }
    let marked1 := st.marked ++ [r.path]
    if batchSize ≤ batch1.length then
      { stats := stats1, batch := [], committed := st.committed ++ [batch1], marked := marked1 }
    else
      { stats := stats1, batch := batch1, committed := st.committed, marked := marked1 }

/-- The whole result loop of `index_directory` over the workers' results (the
pool yields them in arbitrary completion order). -/
def runLoop (batchSize : Nat) (st : IndexState) (rs : List WorkerResult) : IndexState :=
  rs.foldl (processResult batchSize) st

theorem mem_insertDesc {α : Type} (key : α → ℚ) (x : α) (l : List α) (a : α) :
    a ∈ insertDesc key x l ↔ a = x ∨ a ∈ l := by
  induction l with
  | nil => simp [insertDesc]
  | cons y ys ih =>
    simp only [insertDesc]
    split
    · simp
    · simp only [List.mem_cons, ih]
      tauto

theorem pairwise_insertDesc {α : Type} (key : α → ℚ) (x : α) (l : List α)
    (h : l.Pairwise (fun a b => key b ≤ key a)) :
    (insertDesc key x l).Pairwise (fun a b => key b ≤ key a) := by
  induction l with
  | nil => simp [insertDesc]
  | cons y ys ih =>
    rw [List.pairwise_cons] at h
    simp only [insertDesc]
    split
    · rename_i hlt
      refine List.pairwise_cons.2 ⟨?_, List.pairwise_cons.2 h⟩
      intro b hb
      rcases List.mem_cons.1 hb with hb | hb
      · exact hb ▸ le_of_lt hlt
      · exact le_trans (h.1 b hb) (le_of_lt hlt)
    · rename_i hge
      refine List.pairwise_cons.2 ⟨?_, ih h.2⟩
      intro b hb
      rcases (mem_insertDesc key x ys b).1 hb with hb | hb
      · exact hb ▸ le_of_not_lt hge
      · exact h.1 b hb

theorem pairwise_foldl_insertDesc {α : Type} (key : α → ℚ) (l acc : List α)
    (h : acc.Pairwise (fun a b => key b ≤ key a)) :
    (l.foldl (fun acc2 x => insertDesc key x acc2) acc).Pairwise
      (fun a b => key b ≤ key a) := by
  induction l generalizing acc with
  | nil => simpa using h
  | cons x xs ih => exact ih _ (pairwise_insertDesc key x acc h)

theorem pairwise_sortDesc {α : Type} (key : α → ℚ) (l : List α) :
    (sortDesc key l).Pairwise (fun a b => key b ≤ key a) :=
  pairwise_foldl_insertDesc key l [] (by simp)

theorem listContrib_of_not_mem (k : ℚ) (l : List String) (id : String) :
    ∀ r : Nat, id ∉ l → listContrib k l r id = 0 := by
  induction l with
  | nil => intro r _; rfl
  | cons x xs ih =>
    intro r h
    simp only [List.mem_cons, not_or] at h
    simp [listContrib, Ne.symm h.1, ih (r + 1) h.2]

theorem listContrib_eq (k : ℚ) (id : String) :
    ∀ (l : List String) (r : Nat), l.Nodup →
      listContrib k l r id =
        if id ∈ l then 1 / (k + (r : ℚ) + (l.indexOf id : ℚ) + 1) else 0 := by
  intro l
  induction l with
  | nil => intro r _; simp [listContrib]
  | cons x xs ih =>
    intro r hl
    rw [List.nodup_cons] at hl
    by_cases hx : x = id
    · subst hx
      rw [listContrib, listContrib_of_not_mem k xs x (r + 1) hl.1]
      simp [List.indexOf_cons_self]
    · have hxid : id ≠ x := fun h2 => hx h2.symm
      rw [listContrib, ih (r + 1) hl.2, if_neg hx]
      by_cases hmem : id ∈ xs
      · rw [if_pos hmem, if_pos (List.mem_cons_of_mem x hmem),
          List.indexOf_cons_ne xs hx]
        rw [Nat.succ_eq_add_one]
        push_cast
        ring_nf
      · have hnm : id ∉ x :: xs := by simp [hxid, hmem]
        simp [hmem, hnm]

/-- **C3.** Rank fusion assigns each document id the sum, over the dense and
lexical ranked lists, of `1/(60 + rank + 1)` at its 0-based rank in each list
it appears in (accumulating both terms when it is in both); the fused output
is ordered by fused score descending and `retrieve_context` truncates it to
`top_k`; in particular, for disjoint single-result dense and lexical lists,
both documents appear in the fused top 2 with fused score `1/61` each. -/
theorem C3_rrf_fusion_thm (vec kw : List String) (n : Nat)
    (hv : vec.Nodup) (hk : kw.Nodup) :
    (∀ p ∈ rrf_fusion vec kw,
      p.2 = (if p.1 ∈ vec then 1 / (60 + (vec.indexOf p.1 : ℚ) + 1) else 0)
          + (if p.1 ∈ kw then 1 / (60 + (kw.indexOf p.1 : ℚ) + 1) else 0))
    ∧ (rrf_fusion vec kw).Pairwise (fun a b => b.2 ≤ a.2)
    ∧ (retrieve_fused vec kw n).length = min n (rrf_fusion vec kw).length
    ∧ (∀ p ∈ retrieve_fused vec kw n, p ∈ rrf_fusion vec kw)
    ∧ ("A", (1 : ℚ) / 61) ∈ retrieve_fused ["A"] ["B"] 2
    ∧ ("B", (1 : ℚ) / 61) ∈ retrieve_fused ["A"] ["B"] 2 := by
  have hBA : ¬("B" : String) = "A" := by decide
  have hAB : ¬("A" : String) = "B" := by decide
  have hconc : retrieve_fused ["A"] ["B"] 2 = [("A", 1 / 61), ("B", 1 / 61)] := by
    norm_num [retrieve_fused, rrf_fusion, dedupKeys, dedupKeysGo, sortDesc, insertDesc,
      rrfScore, listContrib, hBA, hAB]
  refine ⟨?_, ?_, ?_, ?_, by rw [hconc]; simp, by rw [hconc]; simp⟩
  · intro p hp
    rcases List.mem_map.1 hp with ⟨id, _, rfl⟩
    simp only [rrfScore, listContrib_eq 60 id vec 0 hv, listContrib_eq 60 id kw 0 hk]
    norm_num
  · rw [rrf_fusion, List.pairwise_map]
    exact pairwise_sortDesc (rrfScore vec kw) (dedupKeys (vec ++ kw))
  · simp [retrieve_fused]
  · intro p hp
    exact List.take_subset n _ hp

/-- Witness for C3: the theorem applied to the disjoint single-result lists of
the claim's scenario. -/
theorem C3_witness :
    ("A", (1 : ℚ) / 61) ∈ retrieve_fused ["A"] ["B"] 2 ∧
    ("B", (1 : ℚ) / 61) ∈ retrieve_fused ["A"] ["B"] 2 :=
  ⟨(C3_rrf_fusion_thm ["A"] ["B"] 2 (by decide) (by decide)).2.2.2.2.1,
   (C3_rrf_fusion_thm ["A"] ["B"] 2 (by decide) (by decide)).2.2.2.2.2⟩

/-- **C9.** On the input `"# Intro\ntext\n## Setup\nmore"` the heading-based
fallback extractor returns exactly 2 chunks, named `"Intro"` and `"Setup"`,
with line spans 1–2 and 3–4. -/
theorem C9_heading_scenario_thm :
    extract_by_headings "markdown" "doc.md" "# Intro\ntext\n## Setup\nmore" =
      [{ type := "section", name := "Intro", content := "# Intro\ntext",
         filepath := "doc.md", language := "markdown", line_start := 1, line_end := 2 },
       { type := "section", name := "Setup", content := "## Setup\nmore",
         filepath := "doc.md", language := "markdown", line_start := 3, line_end := 4 }] ∧
    (extract_by_headings "markdown" "doc.md" "# Intro\ntext\n## Setup\nmore").length = 2 := by
  decide

/-- **C1 counterexample.** The grammar-driven (tree-sitter) extraction can
return a chunk named `"anonymous"` whose content length is below
`min_chunk_size`: `_process_capture` never applies `_should_include_chunk`.
Input: source `"x = 1"` with one capture whose node has no `name` field. -/
theorem C1_counterexample :
    ¬ ∀ c ∈ ts_extract_chunks "javascript" "a.js" "x = 1" [(⟨0, 5, 0, 0, none⟩, "function")],
        (c.name ≠ "unknown" ∧ c.name ≠ "anonymous") ∧
        10 ≤ c.content.length ∧ c.content.length ≤ 10000 := by
  decide

/-- **C1 as amended.** Grammar-driven extraction applies no quality gate: every
successfully decoded capture is returned as-is — a capture whose node has no
`name` field yields a chunk named `"anonymous"`, and the chunk's content is
exactly the captured byte-range slice, with no `[min_chunk_size,
max_chunk_size]` constraint (`_should_include_chunk` is used only by the
legacy per-language chunkers). -/
theorem C1_amended_thm (language fp code : String) (node : TSNode) (tag : String)
    (text : String)
    (hblank : (pyStripL code.toList).isEmpty = false)
    (hslice : utf8Slice code node.start_byte node.end_byte = some text)
    (hname : node.name_child = none) :
    ts_extract_chunks language fp code [(node, tag)] =
      [{ type := map_tag_to_type tag, name := "anonymous", content := text,
         filepath := fp, language := language, line_start := node.start_row + 1,
         line_end := node.end_row + 1 }] := by
  have h1 : ¬pyStripL code.data = [] := by simpa [List.isEmpty_iff] using hblank
  simp [ts_extract_chunks, h1, process_captures, process_capture, hslice, hname]

/-- Witness for C1: the concrete capture of the counterexample. -/
theorem C1_amended_witness :
    ts_extract_chunks "javascript" "a.js" "x = 1" [(⟨0, 5, 0, 0, none⟩, "function")] =
      [{ type := map_tag_to_type "function", name := "anonymous", content := "x = 1",
         filepath := "a.js", language := "javascript", line_start := 0 + 1,
         line_end := 0 + 1 }] :=
  C1_amended_thm "javascript" "a.js" "x = 1" ⟨0, 5, 0, 0, none⟩ "function" "x = 1"
    (by decide) (by decide) rfl

/-- **C2 counterexample.** For the heading-based architecture (`markdown`,
no tree-sitter query), the empty input does NOT yield the empty list: the
heading fallback emits a single `"Introduction"` section chunk with empty
content. -/
theorem C2_counterexample :
    adaptive_extract (fun _ => none) "markdown" "doc.md" "" [] =
      [{ type := "section", name := "Introduction", content := "", filepath := "doc.md",
         language := "markdown", line_start := 1, line_end := 1 }] ∧
    adaptive_extract (fun _ => none) "markdown" "doc.md" "" [] ≠ [] := by
  decide

/-- **C5.** When the configured grammar query yields zero chunks, the
cascade's output is the architecture-specific fallback's output whenever that
is non-empty, is the generic paragraph-splitter's output when the architecture
fallback is empty, and equals the paragraph output only if the architecture
fallback yielded nothing (or itself coincides with the paragraph output, as it
does by construction for function-shaped architectures). -/
theorem C5_fallback_order_thm (jp : String → Option (List String))
    (language fp code : String) (captures : List (TSNode × String))
    (hts : ts_extract_chunks language fp code captures = []) :
    (extract_by_architecture jp language fp code ≠ [] →
      adaptive_extract jp language fp code captures =
        extract_by_architecture jp language fp code)
    ∧ (extract_by_architecture jp language fp code = [] →
      adaptive_extract jp language fp code captures =
        extract_by_paragraphs language fp code)
    ∧ (adaptive_extract jp language fp code captures =
        extract_by_paragraphs language fp code →
      extract_by_architecture jp language fp code = [] ∨
        extract_by_architecture jp language fp code =
          extract_by_paragraphs language fp code) := by
  have hstep : adaptive_extract jp language fp code captures =
      if (extract_by_architecture jp language fp code).isEmpty then
        extract_by_paragraphs language fp code
      else extract_by_architecture jp language fp code := by
    rw [adaptive_extract, hts, adaptive_cascade]
    simp only [List.isEmpty_nil, Bool.not_true, Bool.false_eq_true, if_false]
    by_cases hA : (extract_by_architecture jp language fp code).isEmpty
    · simp [hA]
    · simp [hA]
  by_cases hA : extract_by_architecture jp language fp code = []
  · refine ⟨fun hne => absurd hA hne, fun _ => ?_, fun _ => Or.inl hA⟩
    rw [hstep, hA]
    simp
  · have hAe : (extract_by_architecture jp language fp code).isEmpty = false := by
      simpa [List.isEmpty_iff] using hA
    refine ⟨fun _ => ?_, fun h0 => absurd h0 hA, fun hp => ?_⟩
    · rw [hstep, hAe]
      simp
    · rw [hstep, hAe] at hp
      simpa using Or.inr hp

/-- Witness for C5: `csv` input `"hello"` — one line, not a JSON array, so the
record-based architecture fallback yields nothing and the cascade falls
through to the paragraph splitter. -/
theorem C5_witness :
    adaptive_extract (fun _ => none) "csv" "f.csv" "hello" [] =
      extract_by_paragraphs "csv" "f.csv" "hello" :=
  (C5_fallback_order_thm (fun _ => none) "csv" "f.csv" "hello" [] (by decide)).2.1
    (by decide)

/-- **C10.** A path that does not exist on the filesystem is never processed,
whatever the tracker state: `should_process` returns `False` before consulting
the stored row. -/
theorem C10_missing_file_thm (fs : String → Option ℚ) (db : String → LookupResult)
    (p : String) (h : fs p = none) : should_process fs db p = false := by
  simp [should_process, h]

/-- Witness for C10: a deleted file with a stale stored row. -/
theorem C10_witness :
    should_process (fun _ => none) (fun _ => LookupResult.found 3) "gone.py" = false :=
  C10_missing_file_thm (fun _ => none) (fun _ => LookupResult.found 3) "gone.py" rfl

/-- **C4.** For a path whose tracker lookup succeeds and whose file exists,
`should_process` is `True` iff there is no stored row or the on-disk mtime is
strictly newer; consequently, re-indexing an unmodified tree (every candidate's
stored mtime equal to its on-disk mtime) processes 0 files and skips all of
them. -/
theorem C4_staleness_thm (fs : String → Option ℚ) (db db2 : String → LookupResult)
    (p : String) (m : ℚ) (cands : List String)
    (hfs : fs p = some m) (hdb : db p ≠ LookupResult.err)
    (h2 : ∀ q ∈ cands, ∃ mq, fs q = some mq ∧ db2 q = LookupResult.found mq) :
    (should_process fs db p = true ↔
      db p = LookupResult.absent ∨ ∃ m0, db p = LookupResult.found m0 ∧ m0 < m)
    ∧ filterStale fs db2 cands = ([], cands.length) := by
  constructor
  · rw [should_process, hfs]
    cases hdbv : db p with
    | err => exact absurd hdbv hdb
    | absent => simp
    | found m0 => simp [decide_eq_true_iff]
  · have hall : ∀ q ∈ cands, should_process fs db2 q = false := by
      intro q hq
      obtain ⟨mq, hfsq, hdbq⟩ := h2 q hq
      rw [should_process, hfsq, hdbq]
      simp
    have hfil : cands.filter (fun q => should_process fs db2 q) = [] := by
      rw [List.filter_eq_nil_iff]
      intro a ha
      simp [hall a ha]
    have hcnt : cands.countP (fun q => !should_process fs db2 q) = cands.length := by
      rw [List.countP_eq_length]
      intro a ha
      simp [hall a ha]
    simp [filterStale, hfil, hcnt]

/-- Witness for C4: a one-file tree, stored mtime 4, on-disk mtime 5 (stale,
processed), then a second run with the stored mtime updated to 5. -/
theorem C4_witness :
    (should_process (fun _ => some 5) (fun _ => LookupResult.found 4) "a.py" = true ↔
      (fun _ => LookupResult.found 4) "a.py" = LookupResult.absent ∨
        ∃ m0, (fun _ => LookupResult.found 4) "a.py" = LookupResult.found m0 ∧ m0 < 5)
    ∧ filterStale (fun _ => some 5) (fun _ => LookupResult.found 5) ["a.py"] = ([], 1) :=
  C4_staleness_thm (fun _ => some 5) (fun _ => LookupResult.found 4)
    (fun _ => LookupResult.found 5) "a.py" 5 ["a.py"] rfl (by decide)
    (fun q _ => ⟨5, rfl, rfl⟩)

theorem runLoop_cons (b : Nat) (st : IndexState) (r : WorkerResult) (rs : List WorkerResult) :
    runLoop b st (r :: rs) = runLoop b (processResult b st r) rs := rfl

theorem processResult_stats_errors (b : Nat) (st : IndexState) (r : WorkerResult) :
    (processResult b st r).stats.errors =
      st.stats.errors ++
        (match r.error with | some e => [r.path ++ ": " ++ e] | none => []) := by
  cases he : r.error with
  | some e => simp [processResult, he]
  | none =>
    simp only [processResult, he]
    split <;> simp

theorem processResult_failed (b : Nat) (st : IndexState) (r : WorkerResult) :
    (processResult b st r).stats.files_failed =
      st.stats.files_failed + (if r.error.isSome then 1 else 0) := by
  cases he : r.error with
  | some e => simp [processResult, he]
  | none =>
    simp only [processResult, he]
    split <;> simp

theorem processResult_processed (b : Nat) (st : IndexState) (r : WorkerResult) :
    (processResult b st r).stats.files_processed =
      st.stats.files_processed + (if r.error.isNone then 1 else 0) := by
  cases he : r.error with
  | some e => simp [processResult, he]
  | none =>
    simp only [processResult, he]
    split <;> simp

theorem processResult_marked (b : Nat) (st : IndexState) (r : WorkerResult) :
    (processResult b st r).marked =
      st.marked ++ (match r.error with | none => [r.path] | some _ => []) := by
  cases he : r.error with
  | some e => simp [processResult, he]
  | none =>
    simp only [processResult, he]
    split <;> simp

theorem runLoop_errors (b : Nat) (rs : List WorkerResult) :
    ∀ st : IndexState, (runLoop b st rs).stats.errors =
      st.stats.errors ++
        rs.flatMap (fun r2 =>
          match r2.error with | some e => [r2.path ++ ": " ++ e] | none => []) := by
  induction rs with
  | nil => intro st; simp [runLoop]
  | cons r rs ih =>
    intro st
    rw [runLoop_cons, ih, processResult_stats_errors]
    simp [List.append_assoc]

theorem runLoop_failed (b : Nat) (rs : List WorkerResult) :
    ∀ st : IndexState, (runLoop b st rs).stats.files_failed =
      st.stats.files_failed + rs.countP (fun r2 => r2.error.isSome) := by
  induction rs with
  | nil => intro st; simp [runLoop]
  | cons r rs ih =>
    intro st
    rw [runLoop_cons, ih, processResult_failed, List.countP_cons]
    cases he : r.error <;> simp [he, Nat.add_assoc, Nat.add_comm 1]

theorem runLoop_processed (b : Nat) (rs : List WorkerResult) :
    ∀ st : IndexState, (runLoop b st rs).stats.files_processed =
      st.stats.files_processed + rs.countP (fun r2 => r2.error.isNone) := by
  induction rs with
  | nil => intro st; simp [runLoop]
  | cons r rs ih =>
    intro st
    rw [runLoop_cons, ih, processResult_processed, List.countP_cons]
    cases he : r.error <;> simp [he, Nat.add_assoc, Nat.add_comm 1]

theorem runLoop_marked (b : Nat) (rs : List WorkerResult) :
    ∀ st : IndexState, (runLoop b st rs).marked =
      st.marked ++
        rs.filterMap (fun r2 =>
          match r2.error with | none => some r2.path | some _ => none) := by
  induction rs with
  | nil => intro st; simp [runLoop]
  | cons r rs ih =>
    intro st
    rw [runLoop_cons, ih, processResult_marked]
    cases he : r.error <;> simp [he, List.append_assoc]

/-- **C6.** A worker error is recorded in the run statistics as
`"{path}: {message}"`, the failed count is incremented (it counts exactly the
errored results), the errored path is never marked processed in the staleness
tracker (provided no other, successful, result reuses the same path), and the
loop keeps going: every successful result — before or after the failure — is
still counted as processed. -/
theorem C6_error_handling_thm (batchSize : Nat) (st0 : IndexState)
    (rs : List WorkerResult) (r : WorkerResult) (e : String)
    (hr : r ∈ rs) (he : r.error = some e)
    (hpath : ∀ r2 ∈ rs, r2.path = r.path → r2.error.isSome = true)
    (hm : r.path ∉ st0.marked) :
    (r.path ++ ": " ++ e) ∈ (runLoop batchSize st0 rs).stats.errors
    ∧ (runLoop batchSize st0 rs).stats.files_failed =
        st0.stats.files_failed + rs.countP (fun r2 => r2.error.isSome)
    ∧ 1 ≤ rs.countP (fun r2 => r2.error.isSome)
    ∧ r.path ∉ (runLoop batchSize st0 rs).marked
    ∧ (runLoop batchSize st0 rs).stats.files_processed =
        st0.stats.files_processed + rs.countP (fun r2 => r2.error.isNone) := by
  refine ⟨?_, runLoop_failed batchSize rs st0, ?_, ?_, runLoop_processed batchSize rs st0⟩
  · rw [runLoop_errors]
    refine List.mem_append_right _ (List.mem_flatMap.2 ⟨r, hr, ?_⟩)
    rw [he]
    simp
  · rw [Nat.one_le_iff_ne_zero, Ne, ← Nat.le_zero, Nat.not_le, List.countP_pos_iff]
    exact ⟨r, hr, by rw [he]; rfl⟩
  · rw [runLoop_marked]
    intro hmem
    rcases List.mem_append.1 hmem with hmem | hmem
    · exact hm hmem
    · rcases List.mem_filterMap.1 hmem with ⟨r2, hr2, hval⟩
      cases he2 : r2.error with
      | none =>
        rw [he2] at hval
        simp only [Option.some.injEq] at hval
        have := hpath r2 hr2 hval
        rw [he2] at this
        simp at this
      | some e2 => rw [he2] at hval; simp at hval

/-- Witness for C6: three worker results, the middle one failing. -/
theorem C6_witness :
    ("f2" ++ ": " ++ "boom") ∈
      (runLoop 2 ⟨⟨0, 0, 0, 0, [], [], []⟩, [], [], []⟩
        [⟨"f1", "py", [], none⟩, ⟨"f2", "py", [], some "boom"⟩,
         ⟨"f3", "py", [], none⟩]).stats.errors
    ∧ (runLoop 2 ⟨⟨0, 0, 0, 0, [], [], []⟩, [], [], []⟩
        [⟨"f1", "py", [], none⟩, ⟨"f2", "py", [], some "boom"⟩,
         ⟨"f3", "py", [], none⟩]).stats.files_failed =
        (⟨⟨0, 0, 0, 0, [], [], []⟩, [], [], []⟩ : IndexState).stats.files_failed +
          List.countP (fun r2 : WorkerResult => r2.error.isSome)
            [⟨"f1", "py", [], none⟩, ⟨"f2", "py", [], some "boom"⟩,
             ⟨"f3", "py", [], none⟩]
    ∧ 1 ≤ List.countP (fun r2 : WorkerResult => r2.error.isSome)
            [⟨"f1", "py", [], none⟩, ⟨"f2", "py", [], some "boom"⟩,
             ⟨"f3", "py", [], none⟩]
    ∧ "f2" ∉
      (runLoop 2 ⟨⟨0, 0, 0, 0, [], [], []⟩, [], [], []⟩
        [⟨"f1", "py", [], none⟩, ⟨"f2", "py", [], some "boom"⟩,
         ⟨"f3", "py", [], none⟩]).marked
    ∧ (runLoop 2 ⟨⟨0, 0, 0, 0, [], [], []⟩, [], [], []⟩
        [⟨"f1", "py", [], none⟩, ⟨"f2", "py", [], some "boom"⟩,
         ⟨"f3", "py", [], none⟩]).stats.files_processed =
        (⟨⟨0, 0, 0, 0, [], [], []⟩, [], [], []⟩ : IndexState).stats.files_processed +
          List.countP (fun r2 : WorkerResult => r2.error.isNone)
            [⟨"f1", "py", [], none⟩, ⟨"f2", "py", [], some "boom"⟩,
             ⟨"f3", "py", [], none⟩] :=
  C6_error_handling_thm 2 ⟨⟨0, 0, 0, 0, [], [], []⟩, [], [], []⟩
    [⟨"f1", "py", [], none⟩, ⟨"f2", "py", [], some "boom"⟩, ⟨"f3", "py", [], none⟩]
    ⟨"f2", "py", [], some "boom"⟩ "boom" (by decide) rfl (by decide) (by decide)

/-- **C7 counterexample.** The lexical candidate list is NOT "the top
`2·top_k` documents by raw score after client-side filtering": the code
truncates to the top `2·top_k` raw-score documents first and filters
afterwards.  With scores 3, 2, 1, languages x, x, y, filter `language = y`,
`top_k = 1`: the code returns no candidate although a positively-scored
matching document exists. -/
theorem C7_counterexample :
    keyword_search [⟨"a", ⟨"x", "f"⟩, 3⟩, ⟨"b", ⟨"x", "f"⟩, 2⟩, ⟨"c", ⟨"y", "f"⟩, 1⟩]
        (some "y") none 1 = []
    ∧ keyword_search_specfilter
        [⟨"a", ⟨"x", "f"⟩, 3⟩, ⟨"b", ⟨"x", "f"⟩, 2⟩, ⟨"c", ⟨"y", "f"⟩, 1⟩]
        (some "y") none 1 = [⟨"c", ⟨"y", "f"⟩, 1⟩]
    ∧ keyword_search [⟨"a", ⟨"x", "f"⟩, 3⟩, ⟨"b", ⟨"x", "f"⟩, 2⟩, ⟨"c", ⟨"y", "f"⟩, 1⟩]
        (some "y") none 1 ≠
      keyword_search_specfilter
        [⟨"a", ⟨"x", "f"⟩, 3⟩, ⟨"b", ⟨"x", "f"⟩, 2⟩, ⟨"c", ⟨"y", "f"⟩, 1⟩]
        (some "y") none 1 := by
  decide

theorem splitWsGo_tokens :
    ∀ (cs cur : List Char), (∀ ch ∈ cur, isPySpace ch = false) →
      ∀ t ∈ splitWsGo cur cs, t ≠ [] ∧ ∀ ch ∈ t, isPySpace ch = false := by
  intro cs
  induction cs with
  | nil =>
    intro cur hcur t ht
    simp only [splitWsGo] at ht
    split at ht
    · simp at ht
    · rename_i hne
      rw [List.mem_singleton] at ht
      subst ht
      refine ⟨?_, ?_⟩
      · simpa [List.isEmpty_iff] using hne
      · intro ch hch
        exact hcur ch (List.mem_reverse.1 hch)
  | cons c cs2 ih =>
    intro cur hcur t ht
    simp only [splitWsGo] at ht
    split at ht
    · rcases List.mem_append.1 ht with ht | ht
      · split at ht
        · simp at ht
        · rename_i hne
          rw [List.mem_singleton] at ht
          subst ht
          refine ⟨by simpa [List.isEmpty_iff] using hne, ?_⟩
          intro ch hch
          exact hcur ch (List.mem_reverse.1 hch)
      · exact ih [] (by simp) t ht
    · rename_i hcsp
      refine ih (c :: cur) ?_ t ht
      intro ch hch
      rcases List.mem_cons.1 hch with rfl | hch
      · simpa using hcsp
      · exact hcur ch hch

/-- **C7 as amended.** The lexical mode lower-cases and whitespace-splits the
query; its candidate list is obtained by truncating the raw-score descending
ranking of ALL documents to the top `2·top_k` and THEN discarding non-positive
scores and filter mismatches — so every candidate is positively scored,
filter-matching, and drawn from the raw top `2·top_k`, candidates stay in
descending score order, and at most `2·top_k` survive (possibly fewer than the
matching documents available). -/
theorem C7_amended_thm (docs : List BMDoc) (language ftype : Option String) (n : Nat)
    (q : String) :
    (keyword_search docs language ftype n).length ≤ 2 * n
    ∧ (∀ d ∈ keyword_search docs language ftype n,
        0 < d.score ∧ docFilterOk language ftype d = true ∧
          d ∈ (sortDesc (fun d2 => d2.score) docs).take (2 * n))
    ∧ (keyword_search docs language ftype n).Pairwise (fun a b => b.score ≤ a.score)
    ∧ (∀ t ∈ tokenize_query q, t.length ≠ 0 ∧ ∀ ch ∈ t.data, isPySpace ch = false)
    ∧ tokenize_query "Foo BAR" = ["foo", "bar"] := by
  refine ⟨?_, ?_, ?_, ?_, by decide⟩
  · exact le_trans (List.length_filter_le _ _) (List.length_take_le _ _)
  · intro d hd
    have h := List.mem_filter.1 hd
    have hp := h.2
    rw [Bool.and_eq_true] at hp
    exact ⟨by simpa using hp.1, hp.2, h.1⟩
  · exact List.Pairwise.sublist
      ((List.filter_sublist _).trans (List.take_sublist _ _))
      (pairwise_sortDesc (fun d2 => d2.score) docs)
  · intro t ht
    rcases List.mem_map.1 ht with ⟨u, hu, rfl⟩
    have h := splitWsGo_tokens (q.data.map Char.toLower) [] (by simp) u hu
    refine ⟨?_, ?_⟩
    · have : (String.mk u).length = u.length := rfl
      rw [this]
      simpa [List.length_eq_zero] using h.1
    · intro ch hch
      exact h.2 ch hch

/-- Witness for C7: a document set where only 1 of the top-2 raw candidates
survives the filter. -/
theorem C7_amended_witness :
    (keyword_search [⟨"a", ⟨"x", "f"⟩, 3⟩, ⟨"b", ⟨"x", "f"⟩, 2⟩, ⟨"c", ⟨"y", "f"⟩, 1⟩]
        (some "y") none 1).length ≤ 2 * 1
    ∧ (∀ d ∈ keyword_search
          [⟨"a", ⟨"x", "f"⟩, 3⟩, ⟨"b", ⟨"x", "f"⟩, 2⟩, ⟨"c", ⟨"y", "f"⟩, 1⟩]
          (some "y") none 1,
        0 < d.score ∧ docFilterOk (some "y") none d = true ∧
          d ∈ (sortDesc (fun d2 => d2.score)
            [⟨"a", ⟨"x", "f"⟩, 3⟩, ⟨"b", ⟨"x", "f"⟩, 2⟩, ⟨"c", ⟨"y", "f"⟩, 1⟩]).take (2 * 1))
    ∧ (keyword_search [⟨"a", ⟨"x", "f"⟩, 3⟩, ⟨"b", ⟨"x", "f"⟩, 2⟩, ⟨"c", ⟨"y", "f"⟩, 1⟩]
        (some "y") none 1).Pairwise (fun a b => b.score ≤ a.score)
    ∧ (∀ t ∈ tokenize_query "Foo BAR", t.length ≠ 0 ∧ ∀ ch ∈ t.data, isPySpace ch = false)
    ∧ tokenize_query "Foo BAR" = ["foo", "bar"] :=
  C7_amended_thm [⟨"a", ⟨"x", "f"⟩, 3⟩, ⟨"b", ⟨"x", "f"⟩, 2⟩, ⟨"c", ⟨"y", "f"⟩, 1⟩]
    (some "y") none 1 "Foo BAR"

theorem all_ws_pyStripL (cs : List Char) (h : ∀ c ∈ cs, isPySpace c = true) :
    pyStripL cs = [] := by
  have h1 : cs.dropWhile isPySpace = [] := List.dropWhile_eq_nil_iff.2 h
  simp [pyStripL, h1]

theorem splitNl_subset :
    ∀ (cs : List Char), ∀ piece ∈ splitNl cs, ∀ ch ∈ piece, ch ∈ cs := by
  intro cs
  induction cs with
  | nil =>
    intro piece hp ch hch
    simp [splitNl] at hp
    subst hp
    simp at hch
  | cons c cs2 ih =>
    intro piece hp ch hch
    simp only [splitNl] at hp
    split at hp
    · rcases List.mem_cons.1 hp with rfl | hp
      · simp at hch
      · exact List.mem_cons_of_mem c (ih piece hp ch hch)
    · rcases hsp : splitNl cs2 with _ | ⟨p, ps⟩
      · exact absurd hsp (splitNl_ne_nil cs2)
      · rw [hsp] at hp
        rcases List.mem_cons.1 hp with rfl | hp
        · rcases List.mem_cons.1 hch with rfl | hch
          · exact List.mem_cons_self ch cs2
          · exact List.mem_cons_of_mem c
              (ih p (hsp ▸ List.mem_cons_self p ps) ch hch)
        · exact List.mem_cons_of_mem c
            (ih piece (hsp ▸ List.mem_cons_of_mem p hp) ch hch)

theorem headingMatch_none_of_ws (line : List Char)
    (h : ∀ c ∈ line, isPySpace c = true) : headingMatch line = none := by
  have htw : (line.takeWhile (· == '#')).length = 0 := by
    cases line with
    | nil => rfl
    | cons c cs =>
      have hc : isPySpace c = true := h c (List.mem_cons_self c cs)
      have hne : (c == '#') = false := by
        by_cases hx : c = '#'
        · subst hx; simp [isPySpace] at hc
        · simpa using hx
      simp [List.takeWhile_cons, hne]
  simp [headingMatch, htw]

theorem sectionHeaderName_none_of_ws (line : List Char)
    (h : ∀ c ∈ line, isPySpace c = true) : sectionHeaderName line = none := by
  have hs : pyStripL line = [] := all_ws_pyStripL line h
  simp [sectionHeaderName, hs, sectionMatchAlt1, sectionMatchAlt2]

theorem scanSections_no_match (matcher : List Char → Option (List Char))
    (lang fp : String) (total : Nat) :
    ∀ (lines : List (List Char)) (i : Nat) (curSec : List (List Char))
      (curName : List Char) (secStart : Nat),
      (∀ line ∈ lines, matcher line = none) →
      scanSections matcher lang fp total lines i curSec curName secStart =
        if (curSec ++ lines).isEmpty then []
        else [mkSectionChunk lang fp curName (curSec ++ lines) secStart total] := by
  intro lines
  induction lines with
  | nil => intro i curSec curName secStart _; simp [scanSections]
  | cons line rest ih =>
    intro i curSec curName secStart h
    have hm : matcher line = none := h line (List.mem_cons_self line rest)
    rw [scanSections]
    rw [hm]
    rw [ih (i + 1) (curSec ++ [line]) curName secStart
      (fun l hl => h l (List.mem_cons_of_mem line hl))]
    simp

theorem paraSplitGo_subset :
    ∀ (fuel : Nat) (cs : List Char), cs.length ≤ fuel →
      ∀ (acc : List Char), ∀ piece ∈ paraSplitGo acc cs, ∀ ch ∈ piece,
        ch ∈ acc ∨ ch ∈ cs := by
  intro fuel
  induction fuel with
  | zero =>
    intro cs hlen acc piece hp ch hch
    have : cs = [] := List.length_eq_zero.1 (Nat.le_zero.1 hlen)
    subst this
    rw [paraSplitGo] at hp
    rw [List.mem_singleton] at hp
    subst hp
    exact Or.inl (List.mem_reverse.1 hch)
  | succ n ih =>
    intro cs hlen acc piece hp ch hch
    cases cs with
    | nil =>
      rw [paraSplitGo] at hp
      rw [List.mem_singleton] at hp
      subst hp
      exact Or.inl (List.mem_reverse.1 hch)
    | cons c rs =>
      have hrs : rs.length ≤ n := by simpa using hlen
      rw [paraSplitGo] at hp
      split at hp
      · rename_i hc
        subst hc
        rcases hidx : lastNlIdx rs with _ | j
        · rw [hidx] at hp
          rcases ih rs hrs _ piece hp ch hch with hia | hm
          · rcases List.mem_cons.1 hia with h1 | hia
            · subst h1
              exact Or.inr (List.mem_cons_self _ _)
            · exact Or.inl hia
          · exact Or.inr (List.mem_cons_of_mem _ hm)
        · rw [hidx] at hp
          rcases List.mem_cons.1 hp with rfl | hp
          · exact Or.inl (List.mem_reverse.1 hch)
          · have hd : (rs.drop (j + 1)).length ≤ n := by
              rw [List.length_drop]
              omega
            rcases ih (rs.drop (j + 1)) hd [] piece hp ch hch with hia | hm
            · simp at hia
            · exact Or.inr (List.mem_cons_of_mem _ (List.drop_subset _ _ hm))
      · rcases ih rs hrs _ piece hp ch hch with hia | hm
        · rcases List.mem_cons.1 hia with h1 | hia
          · subst h1
            exact Or.inr (List.mem_cons_self _ _)
          · exact Or.inl hia
        · exact Or.inr (List.mem_cons_of_mem _ hm)

theorem paraGo_nil (lang fp : String) :
    ∀ (pieces : List (List Char)) (i curLine : Nat),
      (∀ p ∈ pieces, pyStripL p = []) →
      paraGo lang fp pieces i curLine = [] := by
  intro pieces
  induction pieces with
  | nil => intro i curLine _; rfl
  | cons p ps ih =>
    intro i curLine h
    have hp : pyStripL p = [] := h p (List.mem_cons_self p ps)
    rw [paraGo]
    simp only [hp, List.isEmpty_nil, if_true]
    exact ih (i + 1) curLine (fun q hq => h q (List.mem_cons_of_mem p hq))

theorem extract_by_paragraphs_ws (lang fp code : String)
    (hws : ∀ c ∈ code.toList, isPySpace c = true) :
    extract_by_paragraphs lang fp code = [] := by
  rw [extract_by_paragraphs]
  refine paraGo_nil lang fp _ 0 1 (fun p hp => all_ws_pyStripL p (fun ch hch => ?_))
  rcases paraSplitGo_subset code.toList.length code.toList (le_refl _) [] p hp ch hch with
    h | h
  · simp at h
  · exact hws ch h

theorem csvGo_nil (lang fp : String) (header : List Char) :
    ∀ (dataLines : List (List Char)) (i : Nat),
      (∀ line ∈ dataLines, pyStripL line = []) →
      csvGo lang fp header dataLines i = [] := by
  intro dataLines
  induction dataLines with
  | nil => intro i _; rfl
  | cons l ls ih =>
    intro i h
    have hl : pyStripL l = [] := h l (List.mem_cons_self l ls)
    rw [csvGo]
    simp only [hl, List.isEmpty_nil, if_true]
    exact ih (i + 1) (fun q hq => h q (List.mem_cons_of_mem l hq))

theorem ts_extract_chunks_ws (language fp code : String)
    (captures : List (TSNode × String))
    (hws : ∀ c ∈ code.toList, isPySpace c = true) :
    ts_extract_chunks language fp code captures = [] := by
  have h : pyStripL code.data = [] := all_ws_pyStripL code.data (fun c hc => hws c hc)
  simp [ts_extract_chunks, h]

theorem adaptive_cascade_nil (jp : String → Option (List String)) (lang fp code : String) :
    adaptive_cascade jp lang fp code [] =
      if (extract_by_architecture jp lang fp code).isEmpty then
        extract_by_paragraphs lang fp code
      else extract_by_architecture jp lang fp code := by
  rw [adaptive_cascade]
  simp only [List.isEmpty_nil, Bool.not_true, Bool.false_eq_true, if_false]
  by_cases h : (extract_by_architecture jp lang fp code).isEmpty
  · simp [h]
  · simp [h]

/-- **C2 as amended.** `AdaptiveChunker.extract_chunks` is total (every input
maps to a list), but an empty or whitespace-only input yields the empty list
only for the architectures routed to the record or paragraph strategies: a
heading-based language returns one `"Introduction"` section chunk and a
section-based language one `"root"` section chunk, each holding the whitespace
verbatim and spanning every line of the input. -/
theorem C2_amended_thm (jp : String → Option (List String)) (language fp code : String)
    (captures : List (TSNode × String))
    (hws : ∀ c ∈ code.toList, isPySpace c = true)
    (hjp : jp code = none) :
    adaptive_extract jp language fp code captures =
      (match get_architecture language with
       | FileArchitecture.HEADING_BASED =>
         [{ type := "section", name := "Introduction", content := code, filepath := fp,
            language := language, line_start := 1,
            line_end := (splitNl code.toList).length }]
       | FileArchitecture.SECTION_BASED =>
         [{ type := "section", name := "root", content := code, filepath := fp,
            language := language, line_start := 1,
            line_end := (splitNl code.toList).length }]
       | _ => []) := by
  have hts := ts_extract_chunks_ws language fp code captures hws
  have hpara := extract_by_paragraphs_ws language fp code hws
  have hlines : ∀ line ∈ splitNl code.toList, ∀ c ∈ line, isPySpace c = true :=
    fun line hl c hc => hws c (splitNl_subset code.toList line hl c hc)
  have hnonnil := splitNl_ne_nil code.toList
  rw [adaptive_extract, hts, adaptive_cascade_nil]
  cases harch : get_architecture language
  case HEADING_BASED =>
    have hH : extract_by_headings language fp code =
        [mkSectionChunk language fp "Introduction".toList (splitNl code.toList) 1
          (splitNl code.toList).length] := by
      rw [extract_by_headings]
      rw [scanSections_no_match headingMatch language fp (splitNl code.toList).length
        (splitNl code.toList) 1 [] "Introduction".toList 1
        (fun l hl => headingMatch_none_of_ws l (hlines l hl))]
      simp only [List.nil_append]
      rw [if_neg (by simp only [List.isEmpty_iff]; exact hnonnil)]
    simp only [extract_by_architecture, harch, hH]
    simp [mkSectionChunk, joinNl_splitNl]
  case SECTION_BASED =>
    have hS : extract_config_sections language fp code =
        [mkSectionChunk language fp "root".toList (splitNl code.toList) 1
          (splitNl code.toList).length] := by
      rw [extract_config_sections]
      rw [scanSections_no_match sectionHeaderName language fp (splitNl code.toList).length
        (splitNl code.toList) 1 [] "root".toList 1
        (fun l hl => sectionHeaderName_none_of_ws l (hlines l hl))]
      simp only [List.nil_append]
      rw [if_neg (by simp only [List.isEmpty_iff]; exact hnonnil)]
    simp only [extract_by_architecture, harch, hS]
    simp [mkSectionChunk, joinNl_splitNl]
  case RECORD_BASED =>
    have hR : extract_records jp language fp code = [] := by
      rw [extract_records, hjp]
      simp only
      split
      · cases hsp : splitNl code.toList with
        | nil => exact absurd hsp hnonnil
        | cons header dataLines =>
          exact csvGo_nil language fp header dataLines 1
            (fun l hl => all_ws_pyStripL l
              (hlines l (hsp ▸ List.mem_cons_of_mem header hl)))
      · rfl
    simp only [extract_by_architecture, harch, hR]
    simp [hpara]
  all_goals
    simp only [extract_by_architecture, harch, hpara]
    simp

/-- Witness for C2: whitespace-only input `" \n "` for the heading-based
language `markdown`. -/
theorem C2_amended_witness :
    adaptive_extract (fun _ => none) "markdown" "doc.md" " \n " [] =
      (match get_architecture "markdown" with
       | FileArchitecture.HEADING_BASED =>
         [{ type := "section", name := "Introduction", content := " \n ",
            filepath := "doc.md", language := "markdown", line_start := 1,
            line_end := (splitNl " \n ".toList).length }]
       | FileArchitecture.SECTION_BASED =>
         [{ type := "section", name := "root", content := " \n ", filepath := "doc.md",
            language := "markdown", line_start := 1,
            line_end := (splitNl " \n ".toList).length }]
       | _ => []) :=
  C2_amended_thm (fun _ => none) "markdown" "doc.md" " \n " [] (by decide) rfl

theorem scanSections_lineOk (matcher : List Char → Option (List Char)) (lang fp : String)
    (total : Nat) :
    ∀ (lines : List (List Char)) (i : Nat) (curSec : List (List Char))
      (curName : List Char) (secStart : Nat),
      1 ≤ secStart → secStart + curSec.length = i → i + lines.length = total + 1 →
      ∀ c ∈ scanSections matcher lang fp total lines i curSec curName secStart,
        1 ≤ c.line_start ∧ c.line_start ≤ c.line_end := by
  intro lines
  induction lines with
  | nil =>
    intro i curSec curName secStart h1 h2 h3 c hc
    simp only [scanSections] at hc
    split at hc
    · simp at hc
    · rename_i hne
      rw [List.mem_singleton] at hc
      subst hc
      have hlen : 1 ≤ curSec.length := by
        rcases curSec with _ | ⟨l, ls⟩
        · simp at hne
        · simp
      simp only [mkSectionChunk, List.length_nil] at h3 ⊢
      exact ⟨h1, by omega⟩
  | cons line rest ih =>
    intro i curSec curName secStart h1 h2 h3 c hc
    simp only [scanSections] at hc
    cases hm : matcher line with
    | some nm =>
      rw [hm] at hc
      simp only at hc
      rcases List.mem_append.1 hc with hc | hc
      · split at hc
        · simp at hc
        · rename_i hne
          rw [List.mem_singleton] at hc
          subst hc
          have hlen : 1 ≤ curSec.length := by
            rcases curSec with _ | ⟨l, ls⟩
            · simp at hne
            · simp
          simp only [mkSectionChunk]
          exact ⟨h1, by omega⟩
      · refine ih (i + 1) [line] nm i (by omega) (by simp) ?_ c hc
        simp only [List.length_cons] at h3
        omega
    | none =>
      rw [hm] at hc
      simp only at hc
      refine ih (i + 1) (curSec ++ [line]) curName secStart h1 ?_ ?_ c hc
      · simp only [List.length_append, List.length_singleton]
        omega
      · simp only [List.length_cons] at h3
        omega

theorem paraGo_lineOk (lang fp : String) :
    ∀ (pieces : List (List Char)) (i curLine : Nat),
      1 ≤ curLine →
      ∀ c ∈ paraGo lang fp pieces i curLine, 1 ≤ c.line_start ∧ c.line_start ≤ c.line_end := by
  intro pieces
  induction pieces with
  | nil => intro i curLine _ c hc; simp [paraGo] at hc
  | cons p ps ih =>
    intro i curLine h1 c hc
    simp only [paraGo] at hc
    split at hc
    · exact ih (i + 1) curLine h1 c hc
    · rcases List.mem_cons.1 hc with rfl | hc
      · refine ⟨h1, ?_⟩
        show curLine ≤ curLine + (List.count '\n' (pyStripL p) + 1) - 1
        omega
      · exact ih (i + 1) _ (by omega) c hc

theorem fixedGo_lineOk (lang fp : String) (lines : List (List Char)) :
    ∀ (fuel i num : Nat), lines.length - i ≤ fuel →
      ∀ c ∈ fixedGo lang fp lines i num, 1 ≤ c.line_start ∧ c.line_start ≤ c.line_end := by
  intro fuel
  induction fuel with
  | zero =>
    intro i num h c hc
    rw [fixedGo] at hc
    rw [if_neg (by omega)] at hc
    simp at hc
  | succ n ih =>
    intro i num h c hc
    rw [fixedGo] at hc
    split at hc
    · rename_i h2
      rcases List.mem_cons.1 hc with rfl | hc
      · refine ⟨Nat.succ_le_succ (Nat.zero_le i), ?_⟩
        show i + 1 ≤ min (i + 50) lines.length
        omega
      · exact ih (i + 40) (num + 1) (by omega) c hc
    · simp at hc

theorem recsGo_lineOk (lang fp : String) :
    ∀ (recs : List String) (i : Nat),
      ∀ c ∈ recsGo lang fp recs i, 1 ≤ c.line_start ∧ c.line_start ≤ c.line_end := by
  intro recs
  induction recs with
  | nil => intro i c hc; simp [recsGo] at hc
  | cons r rest ih =>
    intro i c hc
    simp only [recsGo] at hc
    rcases List.mem_cons.1 hc with rfl | hc
    · exact ⟨Nat.succ_le_succ (Nat.zero_le i), Nat.le_refl (i + 1)⟩
    · exact ih (i + 1) c hc

theorem csvGo_lineOk (lang fp : String) (header : List Char) :
    ∀ (dataLines : List (List Char)) (i : Nat),
      ∀ c ∈ csvGo lang fp header dataLines i, 1 ≤ c.line_start ∧ c.line_start ≤ c.line_end := by
  intro dataLines
  induction dataLines with
  | nil => intro i c hc; simp [csvGo] at hc
  | cons l ls ih =>
    intro i c hc
    simp only [csvGo] at hc
    split at hc
    · exact ih (i + 1) c hc
    · rcases List.mem_cons.1 hc with rfl | hc
      · exact ⟨Nat.succ_le_succ (Nat.zero_le i), Nat.le_refl (i + 1)⟩
      · exact ih (i + 1) c hc

theorem process_capture_lines (language fp code : String) (node : TSNode) (tag : String)
    (c : CodeChunk) (h : process_capture language fp code node tag = some c) :
    c.line_start = node.start_row + 1 ∧ c.line_end = node.end_row + 1 := by
  simp only [process_capture] at h
  rcases hsl : utf8Slice code node.start_byte node.end_byte with _ | text
  · rw [hsl] at h; simp at h
  · rw [hsl] at h
    simp only at h
    rcases hnc : node.name_child with _ | ⟨s, e⟩
    · rw [hnc] at h
      simp only [Option.some.injEq] at h
      subst h
      exact ⟨rfl, rfl⟩
    · rw [hnc] at h
      simp only at h
      rcases hsl2 : utf8Slice code s e with _ | nm
      · rw [hsl2] at h; simp at h
      · rw [hsl2] at h
        simp only [Option.some.injEq] at h
        subst h
        exact ⟨rfl, rfl⟩

theorem process_captures_mem (language fp code : String) :
    ∀ (captures : List (TSNode × String)) (cs : List CodeChunk),
      process_captures language fp code captures = some cs →
      ∀ c ∈ cs, ∃ p ∈ captures, process_capture language fp code p.1 p.2 = some c := by
  intro captures
  induction captures with
  | nil =>
    intro cs h c hc
    simp only [process_captures, Option.some.injEq] at h
    subst h
    simp at hc
  | cons p ps ih =>
    intro cs h c hc
    simp only [process_captures] at h
    rcases hp : process_capture language fp code p.1 p.2 with _ | c0
    · rw [hp] at h; simp at h
    · rw [hp] at h
      simp only at h
      rcases hps : process_captures language fp code ps with _ | cs0
      · rw [hps] at h; simp at h
      · rw [hps] at h
        simp only [Option.some.injEq] at h
        subst h
        rcases List.mem_cons.1 hc with rfl | hc
        · exact ⟨p, List.mem_cons_self p ps, hp⟩
        · obtain ⟨p2, hp2, hpc⟩ := ih cs0 hps c hc
          exact ⟨p2, List.mem_cons_of_mem p hp2, hpc⟩

/-- **C8.** Every chunk produced by any extraction strategy — grammar-driven
(under the external parser's guarantee that a node's start row is at most its
end row), heading, section, record (JSON or CSV), paragraph, or fixed-size —
satisfies `1 ≤ line_start` and `line_start ≤ line_end`. -/
theorem C8_line_invariant_thm (jp : String → Option (List String))
    (language fp code : String) (captures : List (TSNode × String))
    (hrows : ∀ pcap ∈ captures, pcap.1.start_row ≤ pcap.1.end_row) :
    (∀ c ∈ ts_extract_chunks language fp code captures,
      1 ≤ c.line_start ∧ c.line_start ≤ c.line_end)
    ∧ (∀ c ∈ extract_by_headings language fp code,
      1 ≤ c.line_start ∧ c.line_start ≤ c.line_end)
    ∧ (∀ c ∈ extract_config_sections language fp code,
      1 ≤ c.line_start ∧ c.line_start ≤ c.line_end)
    ∧ (∀ c ∈ extract_records jp language fp code,
      1 ≤ c.line_start ∧ c.line_start ≤ c.line_end)
    ∧ (∀ c ∈ extract_by_paragraphs language fp code,
      1 ≤ c.line_start ∧ c.line_start ≤ c.line_end)
    ∧ (∀ c ∈ extract_fixed_size language fp code,
      1 ≤ c.line_start ∧ c.line_start ≤ c.line_end) := by
  refine ⟨?_, ?_, ?_, ?_, ?_, ?_⟩
  · intro c hc
    rw [ts_extract_chunks] at hc
    split at hc
    · simp at hc
    · rcases hps : process_captures language fp code captures with _ | cs
      · rw [hps] at hc; simp at hc
      · rw [hps] at hc
        simp only at hc
        obtain ⟨p, hp, hpc⟩ := process_captures_mem language fp code captures cs hps c hc
        obtain ⟨hs, he⟩ := process_capture_lines language fp code p.1 p.2 c hpc
        rw [hs, he]
        exact ⟨by omega, by have := hrows p hp; omega⟩
  · intro c hc
    exact scanSections_lineOk headingMatch language fp (splitNl code.toList).length
      (splitNl code.toList) 1 [] "Introduction".toList 1 (by omega) (by simp) (by omega)
      c hc
  · intro c hc
    exact scanSections_lineOk sectionHeaderName language fp (splitNl code.toList).length
      (splitNl code.toList) 1 [] "root".toList 1 (by omega) (by simp) (by omega) c hc
  · intro c hc
    rw [extract_records] at hc
    rcases hjp : jp code with _ | recs
    · rw [hjp] at hc
      simp only at hc
      split at hc
      · rcases hsp : splitNl code.toList with _ | ⟨header, dataLines⟩
        · exact absurd hsp (splitNl_ne_nil code.toList)
        · rw [hsp] at hc
          exact csvGo_lineOk language fp header dataLines 1 c hc
      · simp at hc
    · rw [hjp] at hc
      simp only at hc
      exact recsGo_lineOk language fp recs 0 c hc
  · intro c hc
    exact paraGo_lineOk language fp (paraSplitGo [] code.toList) 0 1 (by omega) c hc
  · intro c hc
    exact fixedGo_lineOk language fp (splitNl code.toList) (splitNl code.toList).length 0 1
      (by omega) c hc

/-- Witness for C8: the invariant evaluated for a concrete capture set and a
concrete two-line document across all strategies. -/
theorem C8_witness :
    (∀ c ∈ ts_extract_chunks "javascript" "a.js" "x = 1"
        [(⟨0, 5, 0, 0, none⟩, "function")],
      1 ≤ c.line_start ∧ c.line_start ≤ c.line_end)
    ∧ (∀ c ∈ extract_by_headings "javascript" "a.js" "x = 1",
      1 ≤ c.line_start ∧ c.line_start ≤ c.line_end)
    ∧ (∀ c ∈ extract_config_sections "javascript" "a.js" "x = 1",
      1 ≤ c.line_start ∧ c.line_start ≤ c.line_end)
    ∧ (∀ c ∈ extract_records (fun _ => none) "javascript" "a.js" "x = 1",
      1 ≤ c.line_start ∧ c.line_start ≤ c.line_end)
    ∧ (∀ c ∈ extract_by_paragraphs "javascript" "a.js" "x = 1",
      1 ≤ c.line_start ∧ c.line_start ≤ c.line_end)
    ∧ (∀ c ∈ extract_fixed_size "javascript" "a.js" "x = 1",
      1 ≤ c.line_start ∧ c.line_start ≤ c.line_end) :=
  C8_line_invariant_thm (fun _ => none) "javascript" "a.js" "x = 1"
    [(⟨0, 5, 0, 0, none⟩, "function")] (by decide)
